import Mathlib

/-!
Verification of the dora VM specialization, layout, safepoint, driver,
assembler-label and write-barrier layers against a shallow embedding of the
Rust sources (src/dora, src/dora-runtime, src/dora-frontend, src/src).

Conventions: machine i32/usize arithmetic is modelled on Int/Nat; compiled
programs and VM tables become explicit Lean data; fallible or panicking code
returns Option.
-/

namespace Dora

/-- Shallow embedding of BytecodeType (src/dora/src/bytecode/ty.rs).
Tuple element lists are stored inline; the source interns them behind a
TypeArray, with structural equality, so this is the same data. -/
inductive Ty where
  | unit
  | bool
  | uint8
  | char
  | int32
  | int64
  | float32
  | float64
  | ptr
  | typeParam (k : Nat)
  | tuple (subtypes : List Ty)
  | enumT (id : Nat) (params : List Ty)
  | structT (id : Nat) (params : List Ty)
  | classT (id : Nat) (params : List Ty)
  | traitT (id : Nat) (params : List Ty)
  | lambda (params : List Ty) (ret : Ty)

mutual

/-- Embedding of specialize_bty (src/dora/src/vm/specialize.rs lines 569-614):
recursive substitution of TypeParam k by type_params[k]. The source indexes
the array and panics when out of bounds; the model leaves the TypeParam
unchanged there (all uses below are in bounds). -/
def specializeBty (ty : Ty) (tp : List Ty) : Ty :=
  match ty with
  | .typeParam k => (tp.get? k).getD (.typeParam k)
  | .classT i params => .classT i (specializeBtyArray params tp)
  | .traitT i params => .traitT i (specializeBtyArray params tp)
  | .structT i params => .structT i (specializeBtyArray params tp)
  | .enumT i params => .enumT i (specializeBtyArray params tp)
  | .lambda params ret => .lambda (specializeBtyArray params tp) (specializeBty ret tp)
  | .tuple subtypes => .tuple (specializeBtyArray subtypes tp)
  | .unit => .unit
  | .uint8 => .uint8
  | .bool => .bool
  | .char => .char
  | .int32 => .int32
  | .int64 => .int64
  | .float32 => .float32
  | .float64 => .float64
  | .ptr => .ptr

/-- Embedding of specialize_bty_array: pointwise substitution. -/
def specializeBtyArray (tys : List Ty) (tp : List Ty) : List Ty :=
  match tys with
  | [] => []
  | t :: rest => specializeBty t tp :: specializeBtyArray rest tp

end

mutual

/-- Structural equality test on types; TypeArray hashes and compares by
content, so the caches key on exactly this relation. -/
def tyBeq : Ty → Ty → Bool
  | .unit, .unit => true
  | .bool, .bool => true
  | .uint8, .uint8 => true
  | .char, .char => true
  | .int32, .int32 => true
  | .int64, .int64 => true
  | .float32, .float32 => true
  | .float64, .float64 => true
  | .ptr, .ptr => true
  | .typeParam k, .typeParam l => k == l
  | .tuple a, .tuple b => tyListBeq a b
  | .enumT i a, .enumT j b => i == j && tyListBeq a b
  | .structT i a, .structT j b => i == j && tyListBeq a b
  | .classT i a, .classT j b => i == j && tyListBeq a b
  | .traitT i a, .traitT j b => i == j && tyListBeq a b
  | .lambda p r, .lambda q s => tyListBeq p q && tyBeq r s
  | _, _ => false

/-- Pointwise structural equality on type lists. -/
def tyListBeq : List Ty → List Ty → Bool
  | [], [] => true
  | x :: xs, y :: ys => tyBeq x y && tyListBeq xs ys
  | _, _ => false

end

set_option maxHeartbeats 3200000 in
/-- Soundness and completeness of the boolean comparison, packaged as the
decision procedure for structural type equality. -/
def tyBeqSpec : ∀ a b : Ty, tyBeq a b = true ↔ a = b := by
  apply tyBeq.induct (fun a b => tyBeq a b = true ↔ a = b)
    (fun a b => tyListBeq a b = true ↔ a = b)
  case case17 =>
    intro t u h1 h2 h3 h4 h5 h6 h7 h8 h9 h10 h11 h12 h13 h14 h15 h16
    cases t <;> cases u <;>
      first
        | exact (h1 rfl rfl).elim
        | exact (h2 rfl rfl).elim
        | exact (h3 rfl rfl).elim
        | exact (h4 rfl rfl).elim
        | exact (h5 rfl rfl).elim
        | exact (h6 rfl rfl).elim
        | exact (h7 rfl rfl).elim
        | exact (h8 rfl rfl).elim
        | exact (h9 rfl rfl).elim
        | exact (h10 _ _ rfl rfl).elim
        | exact (h11 _ _ rfl rfl).elim
        | exact (h12 _ _ _ _ rfl rfl).elim
        | exact (h13 _ _ _ _ rfl rfl).elim
        | exact (h14 _ _ _ _ rfl rfl).elim
        | exact (h15 _ _ _ _ rfl rfl).elim
        | exact (h16 _ _ _ _ rfl rfl).elim
        | simp [tyBeq]
  case case20 =>
    intro xs ys h1 h2
    cases xs <;> cases ys <;>
      first
        | exact (h1 rfl rfl).elim
        | exact (h2 _ _ _ _ rfl rfl).elim
        | simp [tyListBeq]
  all_goals intros
  all_goals simp_all [tyBeq, tyListBeq]

instance : DecidableEq Ty := fun a b => decidable_of_iff _ (tyBeqSpec a b)

/-- Modelled from the spec: BytecodeType::is_reference_type is called by the
specialization layer but its definition (dora-bytecode crate) is not in the
tree; the spec lists the reference types as Ptr, Class, Trait, Lambda. -/
def isReferenceType : Ty → Bool
  | .ptr | .classT _ _ | .traitT _ _ | .lambda _ _ => true
  | _ => false

/-- Enum variant of the semantic analysis: the list of field types
(src/dora definition tables; only the shape needed by specialization). -/
structure EnumVariant where
  types : List Ty
  deriving DecidableEq

/-- Enum definition: its variants in declaration order. -/
structure EnumDefn where
  variants : List EnumVariant
  deriving DecidableEq

/-- Struct definition: its field types in declaration order. -/
structure StructDefn where
  fields : List Ty
  deriving DecidableEq

/-- Definition tables of the VM as far as layout needs them. -/
structure Env where
  structs : List StructDefn
  enums : List EnumDefn

/-- Embedding of EnumLayout (src/dora/src/vm.rs). -/
inductive EnumLayout where
  | int
  | ptr
  | tagged
  deriving DecidableEq

/-- Embedding of enum_is_simple_integer (specialize.rs lines 161-169):
true when every variant carries zero fields. -/
def enumIsSimpleInteger (e : EnumDefn) : Bool :=
  e.variants.all fun v => v.types.isEmpty

/-- Embedding of enum_is_ptr (specialize.rs lines 171-192): exactly two
variants; the empty one plays none, the other some; some must carry exactly
one field whose substituted type is a reference type. -/
def enumIsPtr (e : EnumDefn) (tp : List Ty) : Bool :=
  match e.variants with
  | [variant1, variant2] =>
    let p := if variant1.types.isEmpty then (variant1, variant2) else (variant2, variant1)
    p.1.types.isEmpty &&
      (match p.2.types with
       | [t] => isReferenceType (specializeBty t tp)
       | _ => false)
  | _ => false

/-- Embedding of the layout selection in create_specialized_enum
(specialize.rs lines 128-134). -/
def createEnumLayout (e : EnumDefn) (tp : List Ty) : EnumLayout :=
  if enumIsSimpleInteger e then .int
  else if enumIsPtr e tp then .ptr
  else .tagged

/-- Layout of the enum instance for a definition id: table lookup plus
create_specialized_enum layout selection (create_enum_instance). -/
def enumInstanceLayout (env : Env) (id : Nat) (tp : List Ty) : Option EnumLayout :=
  (env.enums.get? id).map fun e => createEnumLayout e tp

/-! Specialization caches (src/dora/src/vm/specialize.rs): the struct, enum
and class caches all follow the same discipline — lookup under the read lock
(specialize_struct lines 33-39, specialize_enum lines 112-118, specialize_class
lines 317-323), and on a miss compute the instance, take the write lock,
re-check, push into the instance vector and insert
(create_specialized_struct lines 78-94, create_specialized_enum lines 136-158,
create_specialized_class_regular lines 372-389). The model keeps the shared
cache state explicit and makes the two lock-protected regions the atomic
steps of a caller. -/

/-- Key of a specialization cache: (definition id, concrete TypeArray). -/
structure SpecKey where
  defId : Nat
  typeParams : List Ty
  deriving DecidableEq

/-- One specialization cache together with the instance vector it allocates
ids from: entries mirror the HashMap content, nextId is the index the next
push into the instance vector returns. -/
structure SpecCache where
  entries : List (SpecKey × Nat)
  nextId : Nat

/-- Lookup of a key, as performed under either lock. -/
def cacheLookup (c : SpecCache) (k : SpecKey) : Option Nat :=
  (c.entries.find? fun e => decide (e.1 = k)).map fun e => e.2

/-- Write-locked section: re-check the cache; on a still-miss push the
computed instance (id = vector index) and insert it; the source then asserts
that the insert displaced nothing (assert old.is_none()). -/
def writeLocked (c : SpecCache) (k : SpecKey) : Nat × SpecCache :=
  match cacheLookup c k with
  | some id => (id, c)
  | none => (c.nextId, ⟨(k, c.nextId) :: c.entries, c.nextId + 1⟩)

/-- A full call of create_struct_instance / create_enum_instance /
create_class_instance on the cache: read-locked lookup, then on a miss the
write-locked double check. -/
def createInstance (c : SpecCache) (k : SpecKey) : Nat × SpecCache :=
  match cacheLookup c k with
  | some id => (id, c)
  | none => writeLocked c k

/-- Phase of one concurrent caller: before its read-locked lookup, after a
read miss, or finished with the id it returns. -/
inductive CallerPhase where
  | start
  | readMiss
  | done (r : Nat)
  deriving DecidableEq

/-- One atomic step of a caller for key k: either its read-locked lookup or
its write-locked double-check section. -/
def callerStep (k : SpecKey) (c : SpecCache) : CallerPhase → CallerPhase × SpecCache
  | .start =>
    match cacheLookup c k with
    | some id => (.done id, c)
    | none => (.readMiss, c)
  | .readMiss =>
    let p := writeLocked c k
    (.done p.1, p.2)
  | .done r => (.done r, c)

/-- Shared cache plus the phases of two concurrent callers of the same key. -/
structure TwoCallers where
  cache : SpecCache
  c1 : CallerPhase
  c2 : CallerPhase

/-- Scheduler step: the chosen caller performs its next atomic step. -/
def stepTwo (k : SpecKey) (cfg : TwoCallers) (pickFirst : Bool) : TwoCallers :=
  if pickFirst then
    let p := callerStep k cfg.cache cfg.c1
    ⟨p.2, p.1, cfg.c2⟩
  else
    let p := callerStep k cfg.cache cfg.c2
    ⟨p.2, cfg.c1, p.1⟩

/-- Run of an arbitrary finite interleaving of the two callers. -/
def runTwo (k : SpecKey) (cfg : TwoCallers) : List Bool → TwoCallers
  | [] => cfg
  | b :: rest => runTwo k (stepTwo k cfg b) rest

/-- Number of cache entries carrying key k. -/
def countKey (k : SpecKey) (entries : List (SpecKey × Nat)) : Nat :=
  entries.countP fun e => decide (e.1 = k)

/-- Invariant carried through every interleaving: at most one entry for the
key, and a finished caller returned exactly the id the cache holds. -/
def CacheInv (k : SpecKey) (cfg : TwoCallers) : Prop :=
  countKey k cfg.cache.entries ≤ 1 ∧
  (∀ r, cfg.c1 = .done r → cacheLookup cfg.cache k = some r) ∧
  (∀ r, cfg.c2 = .done r → cacheLookup cfg.cache k = some r)



/-! Layout core. create_specialized_struct, add_ref_fields (specialize.rs) and
determine_tuple_size (src/dora/src/vm/tuples.rs) recurse through the
definition tables, so the model threads an explicit fuel and returns none
when it runs out (the source would recurse forever on a cyclic value type)
or when the source would panic. The cache bookkeeping that the source
interleaves with the computation is modelled separately above; the cached
instance always equals the recomputed one because the computation is
deterministic in (Env, id, type_params). -/

/-- Modelled from the spec: mem::ptr_width (mem module not in tree); the
target is 64-bit x86. -/
def ptrWidth : Int := 8

/-- Modelled from the spec: mem::align_i32 rounds the value up to the next
multiple of the alignment; alignment 0 leaves the value unchanged. -/
def alignI32 (value alignment : Int) : Int :=
  if alignment = 0 then value else (value + alignment - 1) / alignment * alignment

/-- Field of a struct instance (vm.rs StructInstanceField). -/
structure StructInstanceField where
  offset : Int
  ty : Ty
  deriving DecidableEq

/-- Concrete struct layout (vm.rs StructInstance). -/
structure StructInstance where
  size : Int
  align : Int
  fields : List StructInstanceField
  ref_fields : List Int
  deriving DecidableEq

/-- Concrete tuple layout (src/dora/src/vm/tuples.rs ConcreteTuple). -/
structure ConcreteTuple where
  offsets : List Int
  references : List Int
  size : Int
  align : Int
  deriving DecidableEq

/-- Embedding of SourceType::reference_type
(src/dora/src/language/ty.rs lines 256-263): Ptr, Class and Trait only. -/
def sourceReferenceType : Ty → Bool
  | .ptr | .classT _ _ | .traitT _ _ => true
  | _ => false

mutual

/-- Modelled from the spec: cannon::codegen::size (not in tree). Primitives
have fixed sizes, reference types use pointer width, an Int enum is a 4-byte
discriminant and any other enum a pointer, nested structs and tuples take
their instance size from the shape layer. TypeParam is rejected. -/
def tySize : Nat → Env → Ty → Option Int
  | 0, _, _ => none
  | fuel + 1, env, ty =>
    match ty with
    | .unit => some 0
    | .bool => some 1
    | .uint8 => some 1
    | .char => some 4
    | .int32 => some 4
    | .int64 => some 8
    | .float32 => some 4
    | .float64 => some 8
    | .ptr => some ptrWidth
    | .classT _ _ => some ptrWidth
    | .traitT _ _ => some ptrWidth
    | .lambda _ _ => some ptrWidth
    | .typeParam _ => none
    | .enumT id tp =>
      match enumInstanceLayout env id tp with
      | some .int => some 4
      | some .ptr => some ptrWidth
      | some .tagged => some ptrWidth
      | none => none
    | .structT id tp => (createStructInstance fuel env id tp).map fun si => si.size
    | .tuple sub => (concreteTupleBty fuel env sub).map fun ct => ct.size

/-- Modelled from the spec: cannon::codegen::align (not in tree); natural
alignment of each type, nested aggregates via the shape layer. -/
def tyAlign : Nat → Env → Ty → Option Int
  | 0, _, _ => none
  | fuel + 1, env, ty =>
    match ty with
    | .unit => some 0
    | .bool => some 1
    | .uint8 => some 1
    | .char => some 4
    | .int32 => some 4
    | .int64 => some 8
    | .float32 => some 4
    | .float64 => some 8
    | .ptr => some ptrWidth
    | .classT _ _ => some ptrWidth
    | .traitT _ _ => some ptrWidth
    | .lambda _ _ => some ptrWidth
    | .typeParam _ => none
    | .enumT id tp =>
      match enumInstanceLayout env id tp with
      | some .int => some 4
      | some .ptr => some ptrWidth
      | some .tagged => some ptrWidth
      | none => none
    | .structT id tp => (createStructInstance fuel env id tp).map fun si => si.align
    | .tuple sub => (concreteTupleBty fuel env sub).map fun ct => ct.align

/-- Embedding of add_ref_fields (specialize.rs lines 249-300): appends to the
accumulated ref_fields vector exactly the reference offsets of a field of
the given concrete type placed at the given offset. TypeParam is the
unreachable! arm. -/
def addRefFields : Nat → Env → List Int → Int → Ty → Option (List Int)
  | 0, _, _, _, _ => none
  | fuel + 1, env, refs, offset, ty =>
    match ty with
    | .tuple sub =>
      (concreteTupleBty fuel env sub).map fun ct =>
        ct.references.foldl (fun acc r => acc ++ [offset + r]) refs
    | .enumT id tp =>
      match enumInstanceLayout env id tp with
      | some .int => some refs
      | some .ptr => some (refs ++ [offset])
      | some .tagged => some (refs ++ [offset])
      | none => none
    | .structT id tp =>
      (createStructInstance fuel env id tp).map fun si =>
        si.ref_fields.foldl (fun acc r => acc ++ [offset + r]) refs
    | .bool => some refs
    | .char => some refs
    | .uint8 => some refs
    | .int32 => some refs
    | .int64 => some refs
    | .float32 => some refs
    | .float64 => some refs
    | .unit => some refs
    | .typeParam _ => none
    | .ptr => some (refs ++ [offset])
    | .classT _ _ => some (refs ++ [offset])
    | .lambda _ _ => some (refs ++ [offset])
    | .traitT _ _ => some (refs ++ [offset])

/-- Field loop of create_specialized_struct (specialize.rs lines 56-76):
specialize the declared field type, place it at the aligned offset, extend
size, alignment and ref_fields. -/
def structFieldsLoop : Nat → Env → List Ty → List Ty → Int → Int →
    List StructInstanceField → List Int → Option StructInstance
  | 0, _, _, _, _, _, _, _ => none
  | _ + 1, _, _, [], size0, align0, fields, refs =>
    some ⟨alignI32 size0 align0, align0, fields, refs⟩
  | fuel + 1, env, tp, fty :: rest, size0, align0, fields, refs =>
    let ty := specializeBty fty tp
    match tySize fuel env ty, tyAlign fuel env ty with
    | some fsize, some falign =>
      let offset := alignI32 size0 falign
      match addRefFields fuel env refs offset ty with
      | some refs2 =>
        structFieldsLoop fuel env tp rest (offset + fsize) (max align0 falign)
          (fields ++ [⟨offset, ty⟩]) refs2
      | none => none
    | _, _ => none

/-- Embedding of create_struct_instance / create_specialized_struct
(specialize.rs lines 18-95) minus the cache bookkeeping: look up the
definition and lay out its fields. -/
def createStructInstance : Nat → Env → Nat → List Ty → Option StructInstance
  | 0, _, _, _ => none
  | fuel + 1, env, id, tp =>
    match env.structs.get? id with
    | some sdef => structFieldsLoop fuel env tp sdef.fields 0 0 [] []
    | none => none

/-- Modelled from the spec: get_concrete_tuple_bty (re-exported by
src/dora/src/vm.rs but its body is not in the tree). Per the spec the tuple
is packed in declaration order at natural alignment, reference offsets are
recorded by the ref-field rules, and the size is rounded up to the maximal
field alignment. -/
def concreteTupleBty : Nat → Env → List Ty → Option ConcreteTuple
  | 0, _, _ => none
  | fuel + 1, env, subtypes => tupleBtyLoop fuel env subtypes 0 0 [] []

/-- Element loop of the spec-modelled concrete tuple computation. -/
def tupleBtyLoop : Nat → Env → List Ty → Int → Int → List Int → List Int →
    Option ConcreteTuple
  | 0, _, _, _, _, _, _ => none
  | _ + 1, _, [], size0, align0, offsets, refs =>
    some ⟨offsets, refs, alignI32 size0 align0, align0⟩
  | fuel + 1, env, ty :: rest, size0, align0, offsets, refs =>
    match tySize fuel env ty, tyAlign fuel env ty with
    | some esize, some ealign =>
      let offset := alignI32 size0 ealign
      match addRefFields fuel env refs offset ty with
      | some refs2 =>
        tupleBtyLoop fuel env rest (offset + esize) (max align0 ealign)
          (offsets ++ [offset]) refs2
      | none => none
    | _, _ => none

/-- Embedding of determine_tuple_size (src/dora/src/vm/tuples.rs lines
38-108), the SourceType-side tuple layout: nested tuples recurse through
get_concrete_tuple, enums are flattened to Int32 or Ptr by their instance
layout, every other element uses its size, alignment and
SourceType::reference_type. The nested-tuple arm is transcribed exactly as
written: the translated nested reference offsets are pushed onto the offsets
vector and the references vector is left alone. -/
def determineTupleSize : Nat → Env → List Ty → Option ConcreteTuple
  | 0, _, _ => none
  | fuel + 1, env, subtypes => determineTupleLoop fuel env subtypes 0 [] [] 0

/-- Element loop of determine_tuple_size. -/
def determineTupleLoop : Nat → Env → List Ty → Int → List Int → List Int →
    Int → Option ConcreteTuple
  | 0, _, _, _, _, _, _ => none
  | _ + 1, _, [], size0, offsets, references, align0 =>
    some ⟨offsets, references, alignI32 size0 align0, align0⟩
  | fuel + 1, env, ty :: rest, size0, offsets, references, align0 =>
    match ty with
    | .tuple sub =>
      match determineTupleSize fuel env sub with
      | some concrete =>
        let elementOffset := alignI32 size0 concrete.align
        determineTupleLoop fuel env rest (elementOffset + concrete.size)
          ((offsets ++ [elementOffset]) ++
            concrete.references.map fun r => elementOffset + r)
          references (max align0 concrete.align)
      | none => none
    | .enumT enumId typeParams =>
      match enumInstanceLayout env enumId typeParams with
      | some layout =>
        let esize : Int := match layout with | .int => 4 | _ => ptrWidth
        let ealign : Int := match layout with | .int => 4 | _ => ptrWidth
        let ety : Ty := match layout with | .int => .int32 | _ => .ptr
        let elementOffset := alignI32 size0 ealign
        determineTupleLoop fuel env rest (elementOffset + esize)
          (offsets ++ [elementOffset])
          (if sourceReferenceType ety then references ++ [elementOffset]
           else references)
          (max align0 ealign)
      | none => none
    | _ =>
      match tySize fuel env ty, tyAlign fuel env ty with
      | some esize, some ealign =>
        let elementOffset := alignI32 size0 ealign
        determineTupleLoop fuel env rest (elementOffset + esize)
          (offsets ++ [elementOffset])
          (if sourceReferenceType ty then references ++ [elementOffset]
           else references)
          (max align0 ealign)
      | _, _ => none

end

/-! Safepoint resume phase. The repository carries two generations of the
runtime: src/dora-runtime/src/safepoint.rs and src/dora/src/safepoint.rs.
Both resume_threads routines first clear safepoint_requested on every thread
and then atomically restore each thread state; an unexpected state panics
(modelled as none). The dora ThreadState names RequestedSafepoint what the
dora-runtime one calls SafepointRequested; the model uses one enum. -/

/-- Thread states of the state machine (threads.rs ThreadState). -/
inductive ThreadState where
  | running
  | parked
  | safepointRequested
  | parkedSafepoint
  | safepoint
  deriving DecidableEq

/-- The per-thread data the resume phase touches: the thread-local
safepoint_requested byte and the atomic state. -/
structure DThread where
  safepointRequested : Bool
  state : ThreadState
  deriving DecidableEq

/-- First loop of both resume_threads versions: clear safepoint_requested on
each thread. -/
def clearSafepointRequested (threads : List DThread) : List DThread :=
  threads.map fun t => ⟨false, t.state⟩

/-- Swap of one thread in dora-runtime resume_threads (lines 103-110): the
state is unconditionally swapped to Parked and the previous state is
asserted to be Safepoint or ParkedSafepoint. -/
def swapToParked (t : DThread) : Option DThread :=
  match t.state with
  | .safepoint => some ⟨t.safepointRequested, .parked⟩
  | .parkedSafepoint => some ⟨t.safepointRequested, .parked⟩
  | _ => none

/-- Transition of one thread in dora resume_threads
(src/dora/src/safepoint.rs lines 84-100): Safepoint goes back to Running,
ParkedSafepoint to Parked, anything else panics. -/
def resumeThreadDora (t : DThread) : Option DThread :=
  match t.state with
  | .safepoint => some ⟨t.safepointRequested, .running⟩
  | .parkedSafepoint => some ⟨t.safepointRequested, .parked⟩
  | _ => none

/-- Per-thread loop with panic propagation (the for loops of both
resume_threads bodies). -/
def resumeLoop (f : DThread → Option DThread) : List DThread → Option (List DThread)
  | [] => some []
  | t :: rest =>
    match f t, resumeLoop f rest with
    | some u, some out => some (u :: out)
    | _, _ => none

/-- Embedding of resume_threads (src/dora-runtime/src/safepoint.rs lines
98-113). -/
def resumeThreadsRuntime (threads : List DThread) : Option (List DThread) :=
  resumeLoop swapToParked (clearSafepointRequested threads)

/-- Embedding of resume_threads (src/dora/src/safepoint.rs lines 78-104). -/
def resumeThreadsDora (threads : List DThread) : Option (List DThread) :=
  resumeLoop resumeThreadDora (clearSafepointRequested threads)

/-! Driver: main discovery and exit codes (src/dora/src/driver/start.rs). -/

/-- The front-end error the driver can report during main discovery. -/
inductive DriverError where
  | wrongMainDefinition
  deriving DecidableEq

/-- The parts of a function definition find_main inspects. -/
structure FctDefn where
  returnType : Ty
  paramsWithoutSelf : List Ty
  typeParamsCount : Nat
  deriving DecidableEq

/-- The parts of the semantic analysis find_main consumes: the program
module symbol table (name to function id) and the function table. -/
structure SemAnalysisModel where
  programModuleFcts : List (String × Nat)
  fcts : List FctDefn

/-- Lookup of the function named main in the program module table
(module_table(...).get_fct(name) in find_main). -/
def mainLookup (sa : SemAnalysisModel) : Option Nat :=
  (sa.programModuleFcts.find? fun e => decide (e.1 = "main")).map fun e => e.2

/-- Signature required of main by the spec: no parameters, no type
parameters, return type Unit or Int32. -/
def mainConforms (fct : FctDefn) : Prop :=
  (fct.returnType = .unit ∨ fct.returnType = .int32) ∧
    fct.paramsWithoutSelf = [] ∧ fct.typeParamsCount = 0

instance (fct : FctDefn) : Decidable (mainConforms fct) := by
  unfold mainConforms
  infer_instance

/-- Embedding of find_main (src/dora/src/driver/start.rs lines 198-226): in
test mode it returns early; otherwise it looks main up, checks the
signature, and either reports WrongMainDefinition or returns the id. The
outer none models the panic of sa.fcts.idx on a dangling id. -/
def find_main (sa : SemAnalysisModel) (isTestCommand : Bool) :
    Option (Option Nat × List DriverError) :=
  if isTestCommand then some (none, [])
  else
    match mainLookup sa with
    | none => some (none, [])
    | some fctid =>
      match sa.fcts.get? fctid with
      | none => none
      | some fct =>
        if (¬fct.returnType = .unit ∧ ¬fct.returnType = .int32) ∨
            ¬fct.paramsWithoutSelf = [] ∨ ¬fct.typeParamsCount = 0 then
          some (none, [.wrongMainDefinition])
        else
          some (some fctid, [])

/-- Embedding of the exit-code choice of run_main (start.rs lines 181-196):
0 when main returns Unit, otherwise the value main returned. -/
def runMainExitCode (mainIsUnit : Bool) (res : Int) : Int :=
  if mainIsUnit then 0 else res

/-- Embedding of the run_tests loop (start.rs lines 120-159) over the
outcomes of the executed test functions, true when vm.run_test returns and
false when the test traps. The loop body counts the test, runs it and then
counts it as passed; per spec section 7 a trap aborts the process before
run_test returns, modelled as none. The final exit code is 0 when every
counted test passed and 1 otherwise. -/
def runTestsExit : List Bool → Nat → Nat → Option (Nat × Nat × Int)
  | [], tests, passed => some (tests, passed, if tests = passed then 0 else 1)
  | outcome :: rest, tests, passed =>
    if outcome then runTestsExit rest (tests + 1) (passed + 1) else none

/-- Embedding of the exit-code paths of start (start.rs lines 41-101):
reported front-end errors exit 1 before anything runs; the test command
takes the run_tests exit code, any other command the run_main one. -/
def startExitCode (frontendErrors isTestCommand : Bool) (testOutcomes : List Bool)
    (mainIsUnit : Bool) (mainResult : Int) : Option Int :=
  if frontendErrors then some 1
  else if isTestCommand then (runTestsExit testOutcomes 0 0).map fun r => r.2.2
  else some (runMainExitCode mainIsUnit mainResult)

/-! Program emission (src/dora-frontend/src/language/program.rs). -/

/-- Name and module id of one entry of a semantic-analysis entity table. -/
structure EntityHeader where
  name : String
  moduleId : Nat
  deriving DecidableEq

/-- Emitted TraitData (dora-bytecode Program): trait name and module id. -/
structure TraitData where
  name : String
  moduleId : Nat
  deriving DecidableEq

/-- The entity tables of the semantic analysis that program emission reads. -/
structure SemTables where
  enums : List EntityHeader
  traits : List EntityHeader

/-- Embedding of create_traits (program.rs lines 147-161), transcribed as
written: the loop iterates sa.enums and emits one TraitData per entry of the
enum table. -/
def create_traits (sa : SemTables) : List TraitData :=
  sa.enums.map fun t => ⟨t.name, t.moduleId⟩

/-! Assembler labels (src/src/masm/x64.rs lines 610-641). The byte buffer,
label table and position counter live in the masm module root, which is not
in the tree; their behavior is pinned by the unit tests at the bottom of
x64.rs (test_backward, test_forward, test_forward_with_gap) and modelled
accordingly: pos() is the buffer length, emit_u32 appends four little-endian
bytes, bind_label stores the current position. -/

/-- Little-endian byte decomposition of a 32-bit value. -/
def u32Bytes (v : Nat) : List Nat :=
  [v % 256, v / 256 % 256, v / 65536 % 256, v / 16777216 % 256]

/-- Two's-complement encoding of an i32 into its u32 bit pattern. -/
def intToU32 (i : Int) : Nat := (i % 4294967296).toNat

/-- Signed reading of a u32 bit pattern. -/
def decodeI32 (n : Nat) : Int :=
  if n < 2147483648 then (n : Nat) else (n : Int) - 4294967296

/-- Assembler state: byte buffer, label table (bound position or none) and
recorded forward jumps (ForwardJump { at, to }). -/
structure Masm where
  data : List Nat
  labels : List (Option Nat)
  jumps : List (Nat × Nat)

/-- Current emission position: the buffer length. -/
def Masm.pos (m : Masm) : Nat := m.data.length

/-- Append four little-endian bytes. -/
def emitU32 (m : Masm) (v : Nat) : Masm :=
  { m with data := m.data ++ u32Bytes v }

/-- Create a fresh unbound label, returning its index. -/
def createLabel (m : Masm) : Masm × Nat :=
  ({ m with labels := m.labels ++ [none] }, m.labels.length)

/-- Bind a label to the current position. -/
def bindLabel (m : Masm) (l : Nat) : Masm :=
  { m with labels := m.labels.set l (some m.pos) }

/-- Embedding of emit_label (x64.rs lines 610-631): a bound (backward) label
emits the signed distance from the position after the four displacement
bytes to the target immediately; an unbound (forward) label emits a zero
placeholder and records the jump. -/
def emitLabel (m : Masm) (l : Nat) : Masm :=
  match (m.labels.get? l).join with
  | some idx =>
    let current := m.pos + 4
    let target := idx
    let diff : Int := -((current : Int) - (target : Int))
    emitU32 m (intToU32 diff)
  | none =>
    let posn := m.pos
    { emitU32 m 0 with jumps := m.jumps ++ [(posn, l)] }

/-- Write bytes into the buffer starting at the given index
(slice.write_u32 in fix_forward_jumps). -/
def writeBytesAt (data : List Nat) (start : Nat) : List Nat → List Nat
  | [] => data
  | b :: rest => writeBytesAt (data.set start b) (start + 1) rest

/-- Loop of fix_forward_jumps (x64.rs lines 633-641): patch each recorded
forward jump with target - at - 4; an undefined label is the expect panic. -/
def fixJumpsLoop : List (Nat × Nat) → Masm → Option Masm
  | [], m => some m
  | (jat, jto) :: rest, m =>
    match (m.labels.get? jto).join with
    | some target =>
      let diff : Int := (target : Int) - (jat : Int) - 4
      fixJumpsLoop rest { m with data := writeBytesAt m.data jat (u32Bytes (intToU32 diff)) }
    | none => none

/-- Embedding of fix_forward_jumps: patch every recorded forward jump. -/
def fixForwardJumps (m : Masm) : Option Masm :=
  fixJumpsLoop m.jumps m

/-- Read four little-endian bytes at the given buffer index. -/
def readU32At (data : List Nat) (start : Nat) : Option Nat :=
  match data.get? start, data.get? (start + 1), data.get? (start + 2),
      data.get? (start + 3) with
  | some b0, some b1, some b2, some b3 =>
    some (b0 + 256 * b1 + 65536 * b2 + 16777216 * b3)
  | _, _, _, _ => none

/-! Write barrier (src/dora-runtime/src/masm/x64.rs lines 995-1014). The
emitted instructions are modelled with the semantics of the x86-64
instructions they assemble; CARD_SIZE_BITS comes from gc::swiper, which is
not in the tree, so it stays a parameter. -/

/-- The x86-64 instructions emit_barrier can emit. -/
inductive BarrierInstr where
  | shrqRi (reg : Nat) (imm : Nat)
  | movbOffsetImm (base : Nat) (disp : Nat) (imm : Nat)
  | loadIntConst (reg : Nat) (v : Nat)
  | movbIndexImm (base : Nat) (index : Nat) (imm : Nat)
  deriving DecidableEq

/-- Embedding of emit_barrier: shift the object address register right by
CARD_SIZE_BITS in place, then store a zero byte at card_table_offset plus
the shifted value, through a displacement when the offset fits in i32 and
through a scratch register otherwise. -/
def emit_barrier (cardSizeBits : Nat) (src scratch : Nat) (cardTableOffset : Nat) :
    List BarrierInstr :=
  [.shrqRi src cardSizeBits] ++
    (if cardTableOffset ≤ 2147483647 then
      [.movbOffsetImm src cardTableOffset 0]
    else
      [.loadIntConst scratch cardTableOffset, .movbIndexImm src scratch 0])

/-- Machine state: 64-bit integer registers and byte-addressed memory. -/
structure MachineState where
  regs : Nat → Nat
  mem : Nat → Nat

/-- Semantics of one instruction: shrq is a logical right shift of the
64-bit register, movb stores the low byte of the immediate at base plus
displacement or base plus index. -/
def execInstr (s : MachineState) : BarrierInstr → MachineState
  | .shrqRi r imm => { s with regs := Function.update s.regs r (s.regs r / 2 ^ imm) }
  | .movbOffsetImm b disp imm =>
    { s with mem := Function.update s.mem (disp + s.regs b) (imm % 256) }
  | .loadIntConst r v => { s with regs := Function.update s.regs r v }
  | .movbIndexImm b i imm =>
    { s with mem := Function.update s.mem (s.regs b + s.regs i) (imm % 256) }

/-- Execution of an instruction sequence. -/
def execProgram (s : MachineState) : List BarrierInstr → MachineState
  | [] => s
  | i :: rest => execProgram (execInstr s i) rest


/-! Theorems for the claims, with their helper lemmas. -/

theorem cacheLookup_eq_none_iff (c : SpecCache) (k : SpecKey) :
    cacheLookup c k = none ↔ countKey k c.entries = 0 := by
  simp [cacheLookup, countKey, List.find?_eq_none, List.countP_eq_zero]

theorem cacheLookup_insert_self (k : SpecKey) (id n : Nat)
    (rest : List (SpecKey × Nat)) :
    cacheLookup ⟨(k, id) :: rest, n⟩ k = some id := by
  simp [cacheLookup, List.find?]

theorem callerStep_preserves (k : SpecKey) (c : SpecCache) (ph : CallerPhase)
    (hcount : countKey k c.entries ≤ 1)
    (hdone : ∀ r, ph = .done r → cacheLookup c k = some r) :
    countKey k (callerStep k c ph).2.entries ≤ 1 ∧
    (∀ v, cacheLookup c k = some v → cacheLookup (callerStep k c ph).2 k = some v) ∧
    (∀ r, (callerStep k c ph).1 = .done r →
      cacheLookup (callerStep k c ph).2 k = some r) := by
  cases ph with
  | start =>
    refine ⟨?_, ?_, ?_⟩ <;>
      simp only [callerStep] <;>
      rcases hl : cacheLookup c k with _ | id <;>
      simp_all
  | readMiss =>
    simp only [callerStep, writeLocked]
    rcases hl : cacheLookup c k with _ | id
    · have hzero : countKey k c.entries = 0 := (cacheLookup_eq_none_iff c k).mp hl
      refine ⟨?_, ?_, ?_⟩
      · simp only [countKey, List.countP_cons] at hzero ⊢
        simp [hzero]
      · intro v hv
        exact absurd hv (by simp)
      · intro r hr
        simp only at hr
        cases hr
        exact cacheLookup_insert_self k c.nextId (c.nextId + 1) c.entries
    · refine ⟨hcount, fun v hv => hl.trans hv, fun r hr => ?_⟩
      simp only at hr
      cases hr
      exact hl
  | done r0 =>
    exact ⟨hcount, fun v hv => hv, fun r hr => by
      simp only [callerStep] at hr
      cases hr
      exact hdone r0 rfl⟩

theorem stepTwo_preserves (k : SpecKey) (cfg : TwoCallers) (b : Bool)
    (h : CacheInv k cfg) : CacheInv k (stepTwo k cfg b) := by
  obtain ⟨hcount, h1, h2⟩ := h
  cases b with
  | true =>
    obtain ⟨hc, hstab, hnew⟩ := callerStep_preserves k cfg.cache cfg.c1 hcount h1
    exact ⟨hc, hnew, fun r hr => hstab r (h2 r hr)⟩
  | false =>
    obtain ⟨hc, hstab, hnew⟩ := callerStep_preserves k cfg.cache cfg.c2 hcount h2
    exact ⟨hc, fun r hr => hstab r (h1 r hr), hnew⟩

theorem runTwo_preserves (k : SpecKey) (cfg : TwoCallers) (sched : List Bool)
    (h : CacheInv k cfg) : CacheInv k (runTwo k cfg sched) := by
  induction sched generalizing cfg with
  | nil => exact h
  | cons b rest ih => exact ih _ (stepTwo_preserves k cfg b h)

theorem createInstance_lookup (c : SpecCache) (k : SpecKey) :
    cacheLookup (createInstance c k).2 k = some (createInstance c k).1 := by
  simp only [createInstance, writeLocked]
  rcases hl : cacheLookup c k with _ | id
  · exact cacheLookup_insert_self k c.nextId (c.nextId + 1) c.entries
  · exact hl

theorem createInstance_hit (c : SpecCache) (k : SpecKey) (v : Nat)
    (h : cacheLookup c k = some v) : createInstance c k = (v, c) := by
  simp [createInstance, h]

/-- C1: the specialization caches hold exactly one entry per (definition id,
concrete TypeArray) key. Under every interleaving of two concurrent callers
of create_struct_instance / create_enum_instance / create_class_instance
with the same key, the key keeps at most one cache entry and both callers
return the same InstanceId; the write-locked insert only happens when no
entry for the key exists; and a repeated sequential call returns the same
InstanceId without changing the cache. -/
theorem specialization_cache_unique (k : SpecKey) (c0 : SpecCache)
    (h0 : countKey k c0.entries ≤ 1) (sched : List Bool) :
    countKey k (runTwo k ⟨c0, .start, .start⟩ sched).cache.entries ≤ 1 ∧
    (∀ r1 r2, (runTwo k ⟨c0, .start, .start⟩ sched).c1 = .done r1 →
      (runTwo k ⟨c0, .start, .start⟩ sched).c2 = .done r2 → r1 = r2) ∧
    (∀ c : SpecCache, cacheLookup c k = none → countKey k c.entries = 0) ∧
    (∀ c : SpecCache, createInstance (createInstance c k).2 k = createInstance c k) := by
  have hstart : CacheInv k ⟨c0, .start, .start⟩ := by
    refine ⟨h0, ?_, ?_⟩ <;> intro r hr <;> simp at hr
  obtain ⟨hcount, h1, h2⟩ := runTwo_preserves k ⟨c0, .start, .start⟩ sched hstart
  refine ⟨hcount, fun r1 r2 hr1 hr2 => ?_, fun c hc => (cacheLookup_eq_none_iff c k).mp hc,
    fun c => ?_⟩
  · have e1 := h1 r1 hr1
    have e2 := h2 r2 hr2
    rw [e1] at e2
    exact (Option.some.injEq _ _).mp e2
  · exact createInstance_hit _ k _ (createInstance_lookup c k)

/-- Concrete instantiation of specialization_cache_unique: empty cache, an
Int32 specialization key, and the schedule that interleaves both callers. -/
theorem specialization_cache_unique_witness :
    countKey ⟨0, [Ty.int32]⟩
        (runTwo ⟨0, [Ty.int32]⟩ ⟨⟨[], 0⟩, .start, .start⟩
          [true, false, true, false]).cache.entries ≤ 1 ∧
    (∀ r1 r2,
      (runTwo ⟨0, [Ty.int32]⟩ ⟨⟨[], 0⟩, .start, .start⟩
        [true, false, true, false]).c1 = .done r1 →
      (runTwo ⟨0, [Ty.int32]⟩ ⟨⟨[], 0⟩, .start, .start⟩
        [true, false, true, false]).c2 = .done r2 → r1 = r2) ∧
    (∀ c : SpecCache, cacheLookup c ⟨0, [Ty.int32]⟩ = none →
      countKey ⟨0, [Ty.int32]⟩ c.entries = 0) ∧
    (∀ c : SpecCache,
      createInstance (createInstance c ⟨0, [Ty.int32]⟩).2 ⟨0, [Ty.int32]⟩ =
        createInstance c ⟨0, [Ty.int32]⟩) :=
  specialization_cache_unique ⟨0, [Ty.int32]⟩ ⟨[], 0⟩ (by decide)
    [true, false, true, false]

theorem enumIsSimpleInteger_iff (e : EnumDefn) :
    enumIsSimpleInteger e = true ↔ ∀ v ∈ e.variants, v.types = [] := by
  simp [enumIsSimpleInteger, List.all_eq_true, List.isEmpty_iff]

theorem exists_pair_eq {α : Type} (v1 v2 : α) (P : α → α → Prop) :
    (∃ w1 w2, ([v1, v2] : List α) = [w1, w2] ∧ P w1 w2) ↔ P v1 v2 := by
  constructor
  · rintro ⟨w1, w2, heq, hp⟩
    simp only [List.cons.injEq, and_true] at heq
    obtain ⟨rfl, rfl⟩ := heq
    exact hp
  · intro hp
    exact ⟨v1, v2, rfl, hp⟩

theorem enumIsPtr_iff (e : EnumDefn) (tp : List Ty) :
    enumIsPtr e tp = true ↔
      ∃ v1 v2, e.variants = [v1, v2] ∧
        ((v1.types = [] ∧ ∃ t, v2.types = [t] ∧
            isReferenceType (specializeBty t tp) = true) ∨
         (v2.types = [] ∧ ∃ t, v1.types = [t] ∧
            isReferenceType (specializeBty t tp) = true)) := by
  rcases e with ⟨vs⟩
  match vs with
  | [] => simp [enumIsPtr]
  | [v] => simp [enumIsPtr]
  | v1 :: v2 :: v3 :: rest => simp [enumIsPtr]
  | [v1, v2] =>
    rw [show (⟨[v1, v2]⟩ : EnumDefn).variants = [v1, v2] from rfl,
      exists_pair_eq]
    by_cases h1 : v1.types.isEmpty
    · have hv1 : v1.types = [] := List.isEmpty_iff.mp h1
      rcases hv2 : v2.types with _ | ⟨t, _ | ⟨t2, ts⟩⟩ <;>
        simp_all [enumIsPtr]
    · rcases hv2 : v2.types with _ | ⟨t, _ | ⟨t2, ts⟩⟩ <;>
        rcases hv1x : v1.types with _ | ⟨s, _ | ⟨s2, ss⟩⟩ <;>
        simp_all [enumIsPtr]

/-- C3: layout selection of create_enum_instance / create_specialized_enum:
the layout is Int exactly when every variant carries zero fields; otherwise
it is Ptr exactly when the enum has two variants, one empty and one with a
single field whose type is a reference type after substituting the type
arguments; otherwise it is Tagged. -/
theorem enum_layout_selection (e : EnumDefn) (tp : List Ty) :
    (createEnumLayout e tp = .int ↔ ∀ v ∈ e.variants, v.types = []) ∧
    (createEnumLayout e tp = .ptr ↔
      ¬(∀ v ∈ e.variants, v.types = []) ∧
      ∃ v1 v2, e.variants = [v1, v2] ∧
        ((v1.types = [] ∧ ∃ t, v2.types = [t] ∧
            isReferenceType (specializeBty t tp) = true) ∨
         (v2.types = [] ∧ ∃ t, v1.types = [t] ∧
            isReferenceType (specializeBty t tp) = true))) ∧
    (createEnumLayout e tp = .tagged ↔
      ¬(∀ v ∈ e.variants, v.types = []) ∧
      ¬∃ v1 v2, e.variants = [v1, v2] ∧
        ((v1.types = [] ∧ ∃ t, v2.types = [t] ∧
            isReferenceType (specializeBty t tp) = true) ∨
         (v2.types = [] ∧ ∃ t, v1.types = [t] ∧
            isReferenceType (specializeBty t tp) = true))) := by
  have hsimple := enumIsSimpleInteger_iff e
  have hptr := enumIsPtr_iff e tp
  by_cases h1 : enumIsSimpleInteger e = true
  · have hall := hsimple.mp h1
    have hlay : createEnumLayout e tp = .int := by
      unfold createEnumLayout
      rw [if_pos h1]
    refine ⟨iff_of_true hlay hall, ?_, ?_⟩
    · exact iff_of_false (by simp [hlay]) fun h => h.1 hall
    · exact iff_of_false (by simp [hlay]) fun h => h.1 hall
  · have hne : ¬∀ v ∈ e.variants, v.types = [] := fun hall =>
      h1 (hsimple.mpr hall)
    by_cases h2 : enumIsPtr e tp = true
    · have hsh := hptr.mp h2
      have hlay : createEnumLayout e tp = .ptr := by
        unfold createEnumLayout
        rw [if_neg h1, if_pos h2]
      refine ⟨iff_of_false (by simp [hlay]) fun hall => hne hall, ?_, ?_⟩
      · exact iff_of_true hlay ⟨hne, hsh⟩
      · exact iff_of_false (by simp [hlay]) fun h => h.2 hsh
    · have hnsh : ¬∃ v1 v2, e.variants = [v1, v2] ∧
          ((v1.types = [] ∧ ∃ t, v2.types = [t] ∧
              isReferenceType (specializeBty t tp) = true) ∨
           (v2.types = [] ∧ ∃ t, v1.types = [t] ∧
              isReferenceType (specializeBty t tp) = true)) :=
        fun hs => h2 (hptr.mpr hs)
      have hlay : createEnumLayout e tp = .tagged := by
        unfold createEnumLayout
        rw [if_neg h1, if_neg h2]
      refine ⟨iff_of_false (by simp [hlay]) fun hall => hne hall, ?_, ?_⟩
      · exact iff_of_false (by simp [hlay]) fun h => hnsh h.2
      · exact iff_of_true hlay ⟨hne, hnsh⟩

theorem foldl_append_map (off : Int) (refs : List Int) (l : List Int) :
    l.foldl (fun acc r => acc ++ [off + r]) refs = refs ++ l.map fun r => off + r := by
  induction l generalizing refs with
  | nil => simp
  | cons x xs ih => simp [ih]

/-- C4: add_ref_fields emits exactly the prescribed reference offsets for a
concrete field type placed at a given offset: nothing for primitives and
Unit; exactly the field offset for Ptr, Class, Trait and Lambda; the nested
struct's ref_fields, or the nested tuple's references, each translated by
the field offset; and for an enum field exactly the field offset when the
enum instance layout is Ptr or Tagged and nothing when it is Int. -/
theorem add_ref_fields_prescribed (fuel : Nat) (env : Env) (refs : List Int)
    (off : Int) :
    (∀ t ∈ [Ty.unit, Ty.bool, Ty.uint8, Ty.char, Ty.int32, Ty.int64,
        Ty.float32, Ty.float64],
      addRefFields (fuel + 1) env refs off t = some refs) ∧
    (addRefFields (fuel + 1) env refs off .ptr = some (refs ++ [off])) ∧
    (∀ i tp, addRefFields (fuel + 1) env refs off (.classT i tp) =
      some (refs ++ [off])) ∧
    (∀ i tp, addRefFields (fuel + 1) env refs off (.traitT i tp) =
      some (refs ++ [off])) ∧
    (∀ ps r, addRefFields (fuel + 1) env refs off (.lambda ps r) =
      some (refs ++ [off])) ∧
    (∀ sub ct, concreteTupleBty fuel env sub = some ct →
      addRefFields (fuel + 1) env refs off (.tuple sub) =
        some (refs ++ ct.references.map fun r => off + r)) ∧
    (∀ i tp si, createStructInstance fuel env i tp = some si →
      addRefFields (fuel + 1) env refs off (.structT i tp) =
        some (refs ++ si.ref_fields.map fun r => off + r)) ∧
    (∀ i tp layout, enumInstanceLayout env i tp = some layout →
      addRefFields (fuel + 1) env refs off (.enumT i tp) =
        some (if layout = .int then refs else refs ++ [off])) := by
  refine ⟨?_, rfl, fun i tp => rfl, fun i tp => rfl, fun ps r => rfl, ?_, ?_, ?_⟩
  · intro t ht
    simp only [List.mem_cons, List.not_mem_nil, or_false] at ht
    rcases ht with rfl | rfl | rfl | rfl | rfl | rfl | rfl | rfl <;> rfl
  · intro sub ct h
    simp [addRefFields, h, foldl_append_map]
  · intro i tp si h
    simp [addRefFields, h, foldl_append_map]
  · intro i tp layout h
    cases layout <;> simp [addRefFields, h]

/-- Concrete instantiation of add_ref_fields_prescribed: a struct with a Ptr
and an Int32 field, an Option-like enum over Ptr, and a plain Ptr field. -/
theorem add_ref_fields_prescribed_witness :
    addRefFields 6 ⟨[⟨[Ty.ptr, Ty.int32]⟩], [⟨[⟨[]⟩, ⟨[Ty.ptr]⟩]⟩]⟩ [3] 16
        (.structT 0 []) =
      some ([3] ++ ([0] : List Int).map fun r => 16 + r) ∧
    addRefFields 6 ⟨[⟨[Ty.ptr, Ty.int32]⟩], [⟨[⟨[]⟩, ⟨[Ty.ptr]⟩]⟩]⟩ [3] 8
        (.enumT 0 []) =
      some (if EnumLayout.ptr = .int then [3] else [3] ++ [8]) ∧
    addRefFields 6 ⟨[⟨[Ty.ptr, Ty.int32]⟩], [⟨[⟨[]⟩, ⟨[Ty.ptr]⟩]⟩]⟩ [3] 4 .ptr =
      some ([3] ++ [4]) :=
  ⟨(add_ref_fields_prescribed 5 ⟨[⟨[Ty.ptr, Ty.int32]⟩], [⟨[⟨[]⟩, ⟨[Ty.ptr]⟩]⟩]⟩
      [3] 16).2.2.2.2.2.2.1 0 [] ⟨16, 8, [⟨0, .ptr⟩, ⟨8, .int32⟩], [0]⟩ rfl,
   (add_ref_fields_prescribed 5 ⟨[⟨[Ty.ptr, Ty.int32]⟩], [⟨[⟨[]⟩, ⟨[Ty.ptr]⟩]⟩]⟩
      [3] 8).2.2.2.2.2.2.2 0 [] .ptr rfl,
   (add_ref_fields_prescribed 5 ⟨[⟨[Ty.ptr, Ty.int32]⟩], [⟨[⟨[]⟩, ⟨[Ty.ptr]⟩]⟩]⟩
      [3] 4).2.1⟩

/-- C2 (failing input): a tuple whose single element is the nested tuple
(Ptr,). The nested tuple records reference offset 0, so per the claim the
outer references should be the translated [0] and offsets should hold one
entry per element; determine_tuple_size instead pushes the translated
nested reference offsets onto offsets (yielding [0, 0]) and leaves
references empty, while the spec-modelled get_concrete_tuple_bty records
the reference. -/
theorem determine_tuple_size_nested_refs_bug :
    determineTupleSize 8 ⟨[], []⟩ [.tuple [.ptr]] =
      some ⟨[0, 0], [], 8, 8⟩ ∧
    concreteTupleBty 8 ⟨[], []⟩ [.tuple [.ptr]] =
      some ⟨[0], [0], 8, 8⟩ := ⟨rfl, rfl⟩

/-- C5 (counterexample): a thread stopped at a safepoint poll while Running.
The dora resume_threads (src/dora/src/safepoint.rs) restores it to Running,
not to Parked as the claim states for both resume routines. -/
theorem resume_threads_safepoint_to_running :
    resumeThreadsDora [⟨true, .safepoint⟩] = some [⟨false, .running⟩] ∧
    ThreadState.running ≠ ThreadState.parked := by decide

/-- C5 (amended): after the resume phase no thread remains in a *Safepoint*
state and every safepoint_requested flag is cleared; the dora-runtime
resume_threads swaps both Safepoint and ParkedSafepoint to Parked, while the
dora resume_threads restores Safepoint to Running and ParkedSafepoint to
Parked; any other state panics in both. -/
theorem resume_threads_amended (threads out : List DThread) :
    (resumeThreadsRuntime threads = some out →
      ∀ t ∈ out, t.state = .parked ∧ t.safepointRequested = false) ∧
    (resumeThreadsDora threads = some out →
      (∀ t ∈ out, (t.state = .running ∨ t.state = .parked) ∧
        t.safepointRequested = false) ∧
      (∀ p ∈ threads.zip out,
        (p.1.state = .safepoint → p.2.state = .running) ∧
        (p.1.state = .parkedSafepoint → p.2.state = .parked))) := by
  constructor
  · intro h
    rw [resumeThreadsRuntime] at h
    induction threads generalizing out with
    | nil =>
      simp [clearSafepointRequested, resumeLoop] at h
      subst h
      simp
    | cons x xs ih =>
      simp only [clearSafepointRequested, List.map_cons, resumeLoop] at h
      rcases hx : swapToParked ⟨false, x.state⟩ with _ | u <;> rw [hx] at h
      · exact absurd h (by simp)
      · rcases hrest : resumeLoop swapToParked (List.map (fun t =>
            (⟨false, t.state⟩ : DThread)) xs) with _ | us <;> rw [hrest] at h
        · exact absurd h (by simp)
        · simp only [Option.some.injEq] at h
          subst h
          intro t ht
          rcases List.mem_cons.mp ht with rfl | hmem
          · rcases hsx : x.state <;> rw [hsx] at hx <;>
              simp [swapToParked] at hx <;> simp [← hx]
          · exact ih us (by rw [clearSafepointRequested]; exact hrest) t hmem
  · intro h
    rw [resumeThreadsDora] at h
    induction threads generalizing out with
    | nil =>
      simp [clearSafepointRequested, resumeLoop] at h
      subst h
      simp
    | cons x xs ih =>
      simp only [clearSafepointRequested, List.map_cons, resumeLoop] at h
      rcases hx : resumeThreadDora ⟨false, x.state⟩ with _ | u <;> rw [hx] at h
      · exact absurd h (by simp)
      · rcases hrest : resumeLoop resumeThreadDora (List.map (fun t =>
            (⟨false, t.state⟩ : DThread)) xs) with _ | us <;> rw [hrest] at h
        · exact absurd h (by simp)
        · simp only [Option.some.injEq] at h
          subst h
          obtain ⟨ihall, ihzip⟩ :=
            ih us (by rw [clearSafepointRequested]; exact hrest)
          constructor
          · intro t ht
            rcases List.mem_cons.mp ht with rfl | hmem
            · rcases hsx : x.state <;> rw [hsx] at hx <;>
                simp [resumeThreadDora] at hx <;> simp [← hx]
            · exact ihall t hmem
          · intro p hp
            rcases List.mem_cons.mp (by simpa [List.zip] using hp) with rfl | hmem
            · constructor <;> intro hs <;> rw [hs] at hx <;>
                simp [resumeThreadDora] at hx <;> simp [← hx]
            · exact ihzip p hmem

/-- Concrete instantiation of resume_threads_amended on a Safepoint and a
ParkedSafepoint thread. -/
theorem resume_threads_amended_witness :
    (∀ t ∈ ([⟨false, .parked⟩, ⟨false, .parked⟩] : List DThread),
      t.state = .parked ∧ t.safepointRequested = false) ∧
    (∀ t ∈ ([⟨false, .running⟩, ⟨false, .parked⟩] : List DThread),
      (t.state = .running ∨ t.state = .parked) ∧ t.safepointRequested = false) :=
  ⟨(resume_threads_amended [⟨true, .safepoint⟩, ⟨false, .parkedSafepoint⟩]
      [⟨false, .parked⟩, ⟨false, .parked⟩]).1 (by decide),
   ((resume_threads_amended [⟨true, .safepoint⟩, ⟨false, .parkedSafepoint⟩]
      [⟨false, .running⟩, ⟨false, .parked⟩]).2 (by decide)).1⟩

/-- C6: find_main reports WrongMainDefinition exactly when a function named
main exists in the program module and its signature is not (no parameters,
no type parameters, return type Unit or Int32); a conforming main is
returned with no error, and WrongMainDefinition is the only error find_main
can report. -/
theorem find_main_spec (sa : SemAnalysisModel) (out : Option Nat × List DriverError)
    (h : find_main sa false = some out) :
    (out.2 ≠ [] ↔ ∃ id fct, mainLookup sa = some id ∧ sa.fcts.get? id = some fct ∧
      ¬mainConforms fct) ∧
    (∀ id fct, mainLookup sa = some id → sa.fcts.get? id = some fct →
      mainConforms fct → out = (some id, [])) ∧
    (out.2 = [] ∨ out.2 = [.wrongMainDefinition]) := by
  rw [find_main, if_neg (by simp)] at h
  split at h
  · rename_i hm
    simp only [Option.some.injEq] at h
    subst h
    exact ⟨by simp [hm], by simp [hm], Or.inl rfl⟩
  · rename_i id hm
    split at h
    · exact absurd h (by simp)
    · rename_i fct hf
      have hiff : ((¬fct.returnType = Ty.unit ∧ ¬fct.returnType = Ty.int32) ∨
          ¬fct.paramsWithoutSelf = [] ∨ ¬fct.typeParamsCount = 0) ↔
            ¬mainConforms fct := by
        rw [mainConforms]
        tauto
      split at h
      · rename_i hbad
        have hnc : ¬mainConforms fct := hiff.mp hbad
        simp only [Option.some.injEq] at h
        subst h
        refine ⟨?_, ?_, Or.inr rfl⟩
        · exact iff_of_true (by simp) ⟨id, fct, hm, hf, hnc⟩
        · intro id2 fct2 hm2 hf2 hc2
          rw [hm] at hm2
          cases hm2
          rw [hf] at hf2
          cases hf2
          exact absurd hc2 hnc
      · rename_i hgood
        have hc : mainConforms fct := by
          by_contra hnc
          exact hgood (hiff.mpr hnc)
        simp only [Option.some.injEq] at h
        subst h
        refine ⟨?_, ?_, Or.inl rfl⟩
        · simp only [ne_eq, not_true_eq_false, false_iff]
          rintro ⟨id2, fct2, hm2, hf2, hnc⟩
          rw [hm] at hm2
          cases hm2
          rw [hf] at hf2
          cases hf2
          exact hnc hc
        · intro id2 fct2 hm2 hf2 _
          rw [hm] at hm2
          cases hm2
          rfl

/-- Concrete instantiation of find_main_spec: a program module holding a
conforming main (no parameters, no type parameters, Unit return). -/
theorem find_main_spec_witness :
    ((some 0, ([] : List DriverError)).2 ≠ [] ↔
      ∃ id fct, mainLookup ⟨[("main", 0)], [⟨Ty.unit, [], 0⟩]⟩ = some id ∧
        (⟨[("main", 0)], [⟨Ty.unit, [], 0⟩]⟩ : SemAnalysisModel).fcts.get? id =
          some fct ∧ ¬mainConforms fct) ∧
    (∀ id fct, mainLookup ⟨[("main", 0)], [⟨Ty.unit, [], 0⟩]⟩ = some id →
      (⟨[("main", 0)], [⟨Ty.unit, [], 0⟩]⟩ : SemAnalysisModel).fcts.get? id =
        some fct → mainConforms fct → (some 0, ([] : List DriverError)) = (some id, [])) ∧
    ((some 0, ([] : List DriverError)).2 = [] ∨
      (some 0, ([] : List DriverError)).2 = [.wrongMainDefinition]) :=
  find_main_spec ⟨[("main", 0)], [⟨Ty.unit, [], 0⟩]⟩ (some 0, []) rfl

theorem runTestsExit_all_passed (outs : List Bool) :
    ∀ t r, runTestsExit outs t t = some r → r.2.2 = 0 := by
  induction outs with
  | nil =>
    intro t r h
    simp only [runTestsExit, if_pos rfl, Option.some.injEq] at h
    subst h
    rfl
  | cons b rest ih =>
    intro t r h
    rcases b with _ | _
    · exact absurd h (by simp [runTestsExit])
    · exact ih (t + 1) r (by simpa [runTestsExit] using h)

theorem runTestsExit_completes (outs : List Bool) :
    ∀ t p, (∃ r, runTestsExit outs t p = some r) ↔ outs.all id = true := by
  induction outs with
  | nil => simp [runTestsExit]
  | cons b rest ih =>
    intro t p
    rcases b with _ | _
    · simp [runTestsExit]
    · simpa [runTestsExit] using ih (t + 1) (p + 1)

/-- C7 (counterexample): one discovered test that fails. The test traps
inside run_test and the process aborts before the exit-code computation, so
the driver never produces exit code 1 from a failing test. -/
theorem failed_test_aborts :
    startExitCode false true [false] true 0 = none ∧
    startExitCode false true [false] true 0 ≠ some 1 := by decide

/-- C7 (amended): the driver exit code is 1 when front-end errors are
reported; 0 when main has return type Unit; the Int32 result of main when it
returns Int32; and 0 when every discovered test passes. A failing test traps
inside run_test and aborts the process, so whenever run_tests completes its
passed counter equals its test counter and it reports exit code 0: the
failure branch of run_tests is unreachable. -/
theorem driver_exit_codes (outcomes : List Bool) (res : Int) :
    (∀ isTest outs u r, startExitCode true isTest outs u r = some 1) ∧
    (startExitCode false false outcomes true res = some 0) ∧
    (startExitCode false false outcomes false res = some res) ∧
    (outcomes.all id = true → ∀ u r,
      startExitCode false true outcomes u r = some 0) ∧
    (∀ r, runTestsExit outcomes 0 0 = some r → r.2.2 = 0) := by
  refine ⟨fun isTest outs u r => rfl, rfl, rfl, ?_, runTestsExit_all_passed outcomes 0⟩
  intro hall u r
  obtain ⟨r2, hr2⟩ := ((runTestsExit_completes outcomes 0 0).mpr hall)
  have hz := runTestsExit_all_passed outcomes 0 r2 hr2
  simp [startExitCode, hr2, hz]

/-- Concrete instantiation of driver_exit_codes: two passing tests. -/
theorem driver_exit_codes_witness :
    startExitCode false true [true, true] true 0 = some 0 ∧
    (∀ r, runTestsExit [true, true] 0 0 = some r → r.2.2 = 0) :=
  ⟨(driver_exit_codes [true, true] 0).2.2.2.1 (by decide) true 0,
   (driver_exit_codes [true, true] 0).2.2.2.2⟩

/-- C8 (failing input): a semantic analysis with one enum named Foo in
module 3 and an empty trait table. create_traits iterates the enum table,
so the emitted traits vector holds the enum-derived entry instead of one
TraitData per trait-table entry. -/
theorem create_traits_iterates_enum_table :
    create_traits ⟨[⟨"Foo", 3⟩], []⟩ = [⟨"Foo", 3⟩] ∧
    (create_traits ⟨[⟨"Foo", 3⟩], []⟩).length ≠
      (⟨[⟨"Foo", 3⟩], []⟩ : SemTables).traits.length := by
  refine ⟨rfl, by decide⟩

theorem intToU32_lt (i : Int) : intToU32 i < 4294967296 := by
  rw [intToU32]
  omega

theorem decodeI32_intToU32 (i : Int) (h1 : -2147483648 ≤ i)
    (h2 : i < 2147483648) : decodeI32 (intToU32 i) = i := by
  rw [intToU32, decodeI32]
  split <;> omega

theorem writeBytesAt_length (bs : List Nat) (d : List Nat) (s : Nat) :
    (writeBytesAt d s bs).length = d.length := by
  induction bs generalizing d s with
  | nil => rfl
  | cons b rest ih => simp [writeBytesAt, ih]

theorem writeBytesAt_get_outside (bs : List Nat) (d : List Nat) (s i : Nat)
    (h : i < s ∨ s + bs.length ≤ i) :
    (writeBytesAt d s bs).get? i = d.get? i := by
  induction bs generalizing d s with
  | nil => rfl
  | cons b rest ih =>
    rw [writeBytesAt, ih]
    · exact List.get?_set_ne b d (by simp at h; omega)
    · simp at h ⊢
      omega

theorem readU32At_write_disjoint (d : List Nat) (jat s : Nat) (bs : List Nat)
    (hbs : bs.length = 4) (hd : jat + 4 ≤ s ∨ s + 4 ≤ jat) :
    readU32At (writeBytesAt d jat bs) s = readU32At d s := by
  rw [readU32At, readU32At,
    writeBytesAt_get_outside bs d jat s (by omega),
    writeBytesAt_get_outside bs d jat (s + 1) (by omega),
    writeBytesAt_get_outside bs d jat (s + 2) (by omega),
    writeBytesAt_get_outside bs d jat (s + 3) (by omega)]

theorem readU32At_writeBytesAt (d : List Nat) (s : Nat) (v : Nat)
    (hlen : s + 4 ≤ d.length) (hv : v < 4294967296) :
    readU32At (writeBytesAt d s (u32Bytes v)) s = some v := by
  have hset : writeBytesAt d s (u32Bytes v) =
      (((d.set s (v % 256)).set (s + 1) (v / 256 % 256)).set
        (s + 2) (v / 65536 % 256)).set (s + 3) (v / 16777216 % 256) := rfl
  rw [hset, readU32At]
  rw [show ((((d.set s (v % 256)).set (s + 1) (v / 256 % 256)).set
      (s + 2) (v / 65536 % 256)).set (s + 3) (v / 16777216 % 256)).get? s =
      some (v % 256) by
    rw [List.get?_set_ne _ _ (by omega), List.get?_set_ne _ _ (by omega),
      List.get?_set_ne _ _ (by omega)]
    exact List.get?_set_eq_of_lt _ (by omega)]
  rw [show ((((d.set s (v % 256)).set (s + 1) (v / 256 % 256)).set
      (s + 2) (v / 65536 % 256)).set (s + 3) (v / 16777216 % 256)).get? (s + 1) =
      some (v / 256 % 256) by
    rw [List.get?_set_ne _ _ (by omega), List.get?_set_ne _ _ (by omega)]
    exact List.get?_set_eq_of_lt _ (by simp; omega)]
  rw [show ((((d.set s (v % 256)).set (s + 1) (v / 256 % 256)).set
      (s + 2) (v / 65536 % 256)).set (s + 3) (v / 16777216 % 256)).get? (s + 2) =
      some (v / 65536 % 256) by
    rw [List.get?_set_ne _ _ (by omega)]
    exact List.get?_set_eq_of_lt _ (by simp; omega)]
  rw [show ((((d.set s (v % 256)).set (s + 1) (v / 256 % 256)).set
      (s + 2) (v / 65536 % 256)).set (s + 3) (v / 16777216 % 256)).get? (s + 3) =
      some (v / 16777216 % 256) by
    exact List.get?_set_eq_of_lt _ (by simp; omega)]
  simp only [Option.some.injEq]
  omega

theorem fixJumpsLoop_shape (js : List (Nat × Nat)) (m m' : Masm)
    (h : fixJumpsLoop js m = some m') :
    m'.labels = m.labels ∧ m'.data.length = m.data.length := by
  induction js generalizing m with
  | nil =>
    simp only [fixJumpsLoop, Option.some.injEq] at h
    subst h
    exact ⟨rfl, rfl⟩
  | cons j rest ih =>
    rw [fixJumpsLoop] at h
    rcases hl : (m.labels.get? j.2).join with _ | target <;> rw [hl] at h
    · exact absurd h (by simp)
    · obtain ⟨hlab, hlen⟩ := ih _ h
      exact ⟨hlab, by rw [hlen]; exact writeBytesAt_length _ _ _⟩

theorem fixJumpsLoop_read_preserved (js : List (Nat × Nat)) (m m' : Masm)
    (s : Nat) (h : fixJumpsLoop js m = some m')
    (hdisj : ∀ j ∈ js, j.1 + 4 ≤ s ∨ s + 4 ≤ j.1) :
    readU32At m'.data s = readU32At m.data s := by
  induction js generalizing m with
  | nil =>
    simp only [fixJumpsLoop, Option.some.injEq] at h
    subst h
    rfl
  | cons j rest ih =>
    rw [fixJumpsLoop] at h
    rcases hl : (m.labels.get? j.2).join with _ | target <;> rw [hl] at h
    · exact absurd h (by simp)
    · rw [ih _ h fun j2 hj2 => hdisj j2 (List.mem_cons_of_mem j hj2)]
      exact readU32At_write_disjoint m.data j.1 s _ rfl
        (hdisj j (List.mem_cons_self j rest))

theorem fixJumpsLoop_patches (js : List (Nat × Nat)) (m m' : Masm)
    (h : fixJumpsLoop js m = some m')
    (hdisj : js.Pairwise fun a b => a.1 + 4 ≤ b.1 ∨ b.1 + 4 ≤ a.1) :
    ∀ j ∈ js, ∀ target, (m.labels.get? j.2).join = some target →
      j.1 + 4 ≤ m.data.length →
      readU32At m'.data j.1 =
        some (intToU32 ((target : Int) - (j.1 : Int) - 4)) := by
  induction js generalizing m with
  | nil => intro j hj; exact absurd hj (List.not_mem_nil j)
  | cons jh rest ih =>
    rw [fixJumpsLoop] at h
    rcases hl : (m.labels.get? jh.2).join with _ | target0 <;> rw [hl] at h
    · exact absurd h (by simp)
    · intro j hj target htar hlen
      rcases List.mem_cons.mp hj with rfl | hmem
      · rw [hl] at htar
        cases htar
        rw [fixJumpsLoop_read_preserved rest _ m' j.1 h
          fun j2 hj2 => ((List.pairwise_cons.mp hdisj).1 j2 hj2).symm.imp
            (fun x => x) (fun x => x)]
        exact readU32At_writeBytesAt m.data j.1 _ hlen (intToU32_lt _)
      · exact ih _ h (List.pairwise_cons.mp hdisj).2 j hmem target htar
          (by rw [writeBytesAt_length]; exact hlen)

/-- C9: label references in the assembler. After fix_forward_jumps every
recorded forward jump's 4-byte field holds the two's-complement encoding of
target - at - 4, the signed byte distance from the position immediately
after the displacement field to the position at which the label was bound,
and it reads back as that distance; emit_label on an already bound label
emits exactly the encoding of the (negative) distance target - (pos + 4) at
emission time. -/
theorem assembler_label_resolution (m m' : Masm)
    (hfix : fixForwardJumps m = some m')
    (hdisj : m.jumps.Pairwise fun a b => a.1 + 4 ≤ b.1 ∨ b.1 + 4 ≤ a.1) :
    (∀ j ∈ m.jumps, ∀ target, (m.labels.get? j.2).join = some target →
      j.1 + 4 ≤ m.data.length →
      readU32At m'.data j.1 =
        some (intToU32 ((target : Int) - (j.1 : Int) - 4)) ∧
      (j.1 + 4 ≤ target → (target : Int) < 2147483648 →
        decodeI32 (intToU32 ((target : Int) - (j.1 : Int) - 4)) =
          (target : Int) - ((j.1 : Int) + 4))) ∧
    (∀ l target, (m.labels.get? l).join = some target → target ≤ m.pos →
      (m.pos : Int) + 4 ≤ 2147483648 →
      emitLabel m l =
        emitU32 m (intToU32 ((target : Int) - ((m.pos : Int) + 4))) ∧
      readU32At (emitLabel m l).data m.pos =
        some (intToU32 ((target : Int) - ((m.pos : Int) + 4))) ∧
      decodeI32 (intToU32 ((target : Int) - ((m.pos : Int) + 4))) =
        (target : Int) - ((m.pos : Int) + 4) ∧
      (target : Int) - ((m.pos : Int) + 4) < 0) := by
  constructor
  · intro j hj target htar hlen
    refine ⟨fixJumpsLoop_patches m.jumps m m' hfix hdisj j hj target htar hlen, ?_⟩
    intro hfwd hsmall
    rw [decodeI32_intToU32 ((target : Int) - (j.1 : Int) - 4) (by omega) (by omega)]
    ring
  · intro l target htar hback hsmall
    have henc : emitLabel m l =
        emitU32 m (intToU32 ((target : Int) - ((m.pos : Int) + 4))) := by
      rw [emitLabel, htar]
      have : -(((m.pos + 4 : Nat) : Int) - (target : Int)) =
          (target : Int) - ((m.pos : Int) + 4) := by push_cast; ring
      simp only [this]
    refine ⟨henc, ?_, decodeI32_intToU32 _ (by omega) (by omega), by omega⟩
    rw [henc]
    have hread : readU32At (emitU32 m
        (intToU32 ((target : Int) - ((m.pos : Int) + 4)))).data m.data.length =
        some (intToU32 ((target : Int) - ((m.pos : Int) + 4))) := by
      rw [emitU32, readU32At]
      rw [List.get?_append_right (by simp), List.get?_append_right (by omega),
        List.get?_append_right (by omega), List.get?_append_right (by omega)]
      have h4 : intToU32 ((target : Int) - ((m.pos : Int) + 4)) < 4294967296 :=
        intToU32_lt _
      simp only [Nat.sub_self, u32Bytes]
      rw [show m.data.length + 1 - m.data.length = 1 by omega,
        show m.data.length + 2 - m.data.length = 2 by omega,
        show m.data.length + 3 - m.data.length = 3 by omega]
      simp only [List.get?, Option.some.injEq]
      omega
    exact hread

/-- Concrete instantiation of assembler_label_resolution, following the
test_forward_with_gap and test_backward unit tests of x64.rs: a forward jump
recorded at position 0 whose label is bound at position 5, and a backward
label bound at position 0 read from position 2. -/
theorem assembler_label_resolution_witness :
    readU32At (⟨[1, 0, 0, 0, 17], [some 5], [(0, 0)]⟩ : Masm).data 0 =
      some (intToU32 ((5 : Int) - (0 : Int) - 4)) ∧
    decodeI32 (intToU32 ((5 : Int) - (0 : Int) - 4)) = (5 : Int) - ((0 : Int) + 4) ∧
    emitLabel ⟨[0, 0], [some 0], []⟩ 0 =
      emitU32 ⟨[0, 0], [some 0], []⟩
        (intToU32 ((0 : Int) - (((⟨[0, 0], [some 0], []⟩ : Masm).pos : Int) + 4))) ∧
    (0 : Int) - (((⟨[0, 0], [some 0], []⟩ : Masm).pos : Int) + 4) < 0 := by
  have hfwd := (assembler_label_resolution ⟨[0, 0, 0, 0, 17], [some 5], [(0, 0)]⟩
      ⟨[1, 0, 0, 0, 17], [some 5], [(0, 0)]⟩ rfl (List.pairwise_singleton _ _)).1
      (0, 0) (List.mem_singleton.mpr rfl) 5 rfl (by decide)
  have hbwd := (assembler_label_resolution ⟨[0, 0], [some 0], []⟩
      ⟨[0, 0], [some 0], []⟩ rfl List.Pairwise.nil).2 0 0 rfl (by decide)
      (by decide)
  exact ⟨hfwd.1, hfwd.2 (by decide) (by decide), hbwd.1, hbwd.2.2.2⟩

/-- C10: the write-barrier sequence right-shifts the object-address register
in place by CARD_SIZE_BITS before the card store: after the barrier the
register holds the shifted card index instead of the object address, and the
zero byte lands at card_table_offset plus that shifted value, in both the
i32-displacement and the scratch-register encodings. -/
theorem emit_barrier_clobbers_src (cardSizeBits : Nat) (src scratch : Nat)
    (off : Nat) (s : MachineState) (hsr : scratch ≠ src) :
    (execProgram s (emit_barrier cardSizeBits src scratch off)).regs src =
      s.regs src / 2 ^ cardSizeBits ∧
    (execProgram s (emit_barrier cardSizeBits src scratch off)).mem
      (off + s.regs src / 2 ^ cardSizeBits) = 0 := by
  rw [emit_barrier]
  by_cases hoff : off ≤ 2147483647
  · rw [if_pos hoff]
    simp [execProgram, execInstr, Function.update]
  · rw [if_neg hoff]
    simp [execProgram, execInstr, Function.update, hsr, Ne.symm hsr, Nat.add_comm]

/-- Concrete instantiation of emit_barrier_clobbers_src: object address
5120, card size 512 bytes (9 bits), card table offset 1024. -/
theorem emit_barrier_clobbers_src_witness :
    (execProgram ⟨fun _ => 5120, fun _ => 7⟩ (emit_barrier 9 0 1 1024)).regs 0 =
      5120 / 2 ^ 9 ∧
    (execProgram ⟨fun _ => 5120, fun _ => 7⟩ (emit_barrier 9 0 1 1024)).mem
      (1024 + 5120 / 2 ^ 9) = 0 := by
  have h := emit_barrier_clobbers_src 9 0 1 1024 ⟨fun _ => 5120, fun _ => 7⟩
    (by decide)
  exact h

end Dora
